import Mathlib

/-!
Verification development for the cron-manager repository
(src/cron-manager.py).  The definitions below are a shallow embedding of
the schedule model, the source readers, the aggregator/filter, the
statistics bucketing and the next-run projector of that program; the
theorems settle the frozen claims about it.

Conventions: Python `datetime` values are modelled at minute granularity
as a calendar record (year, month, day, hour, minute) compared
lexicographically, exactly as Python compares `datetime` values.  Python
strings are Lean `String`s; file contents are given as their list of
lines; the external `python-crontab`/`croniter` library calls that the
program makes are modelled from the specification where noted.
-/

namespace CronManager

/-- Calendar date as Python's `datetime.date` carries it: a year, a month
in 1..12 and a day in 1..daysInMonth. -/
structure PDate where
  year : Nat
  month : Nat
  day : Nat
deriving DecidableEq, Repr

/-- Instant at minute granularity, as the program manipulates
`datetime` values via `replace(minute=..., second=0)` and `timedelta`
arithmetic (sub-minute parts never influence the claims). -/
structure PDateTime where
  date : PDate
  hour : Nat
  minute : Nat
deriving DecidableEq, Repr

/-- Gregorian leap-year rule used by Python's calendar. -/
def isLeap (y : Nat) : Bool :=
  (y % 4 == 0 && y % 100 != 0) || (y % 400 == 0)

/-- Length of a month in the proleptic Gregorian calendar. -/
def daysInMonth (y m : Nat) : Nat :=
  if m = 2 then (if isLeap y then 29 else 28)
  else if m = 4 ∨ m = 6 ∨ m = 9 ∨ m = 11 then 30
  else 31

/-- Successor day in the calendar (the effect of `timedelta(days=1)` on
a date). -/
def nextDay (d : PDate) : PDate :=
  if d.day < daysInMonth d.year d.month then ⟨d.year, d.month, d.day + 1⟩
  else if d.month < 12 then ⟨d.year, d.month + 1, 1⟩
  else ⟨d.year + 1, 1, 1⟩

/-- Adding `n` days to a date (the effect of `timedelta(days=n)`). -/
def addDays (d : PDate) : Nat → PDate
  | 0 => d
  | n + 1 => addDays (nextDay d) n

/-- Number of days in the whole year `y`. -/
def daysInYear (y : Nat) : Nat :=
  if isLeap y then 366 else 365

/-- Days of the proleptic Gregorian calendar strictly before year `y`
(counting from year 0), in closed form: 365 per year plus one per leap
year among 0, …, y−1. -/
def daysBeforeYear (y : Nat) : Nat :=
  365 * y + (y + 3) / 4 - (y + 99) / 100 + (y + 399) / 400

/-- Days of year `y` strictly before month `m` (months count from 1). -/
def daysBeforeMonth (y : Nat) : Nat → Nat
  | 0 => 0
  | m + 1 => daysBeforeMonth y m + (if m = 0 then 0 else daysInMonth y m)

/-- Ordinal number of a date: days elapsed since 0000-01-01. -/
def toOrdinal (d : PDate) : Nat :=
  daysBeforeYear d.year + daysBeforeMonth d.year d.month + (d.day - 1)

/-- Weekday with Python's convention (`datetime.weekday()`): Monday = 0,
…, Sunday = 6.  Year 1 opened on a Monday, hence the offset. -/
def pyWeekday (d : PDate) : Nat :=
  (toOrdinal d + 5) % 7

/-- Date validity: the ranges Python's `datetime` enforces. -/
def validDate (d : PDate) : Bool :=
  1 ≤ d.month && d.month ≤ 12 && 1 ≤ d.day && d.day ≤ daysInMonth d.year d.month

/-- Instant validity at minute granularity. -/
def validDT (t : PDateTime) : Bool :=
  validDate t.date && t.hour ≤ 23 && t.minute ≤ 59

/-- Lexicographic strict order on dates; this is how Python compares
`date` values. -/
def dateLtB (a b : PDate) : Bool :=
  a.year < b.year ||
  (a.year == b.year && (a.month < b.month ||
   (a.month == b.month && a.day < b.day)))

/-- Lexicographic strict order on instants; this is how Python compares
`datetime` values. -/
def dtLtB (a b : PDateTime) : Bool :=
  dateLtB a.date b.date ||
  (a.date == b.date && (a.hour < b.hour ||
   (a.hour == b.hour && a.minute < b.minute)))

/-- Non-strict order on instants. -/
def dtLeB (a b : PDateTime) : Bool :=
  dtLtB a b || a == b

/-- Symbolic schedule kinds: the `@`-vocabulary of the schedule model. -/
inductive SymKind
  | reboot
  | hourly
  | daily
  | weekly
  | monthly
  | yearly
  | midnight
deriving DecidableEq, Repr

/-- One field of a five-field numeric cron expression.  Modelled from the
spec (§4.1): a field is a wildcard, a list of integers (a literal being a
one-element list), or a step over a range (`a-b/n`; a plain range is a
step of 1 and `*/n` is a step over the field's full range). -/
inductive CronField
  | star
  | nums (l : List Nat)
  | steps (lo hi n : Nat)
deriving DecidableEq, Repr

/-- The five fields of a numeric schedule, in cron order. -/
structure NumericSched where
  minute : CronField
  hour : CronField
  dom : CronField
  month : CronField
  dow : CronField
deriving DecidableEq, Repr

/-- Schedule expression: numeric five-field form or symbolic form. -/
inductive SchedExpr
  | numeric (s : NumericSched)
  | symbolic (k : SymKind)
deriving DecidableEq, Repr

/-- Membership of a value in one cron field. -/
def fieldMatches (f : CronField) (v : Nat) : Bool :=
  match f with
  | .star => true
  | .nums l => l.contains v
  | .steps lo hi n => lo ≤ v && v ≤ hi && (v - lo) % n == 0

/-- A field restricts its values unless it is the wildcard. -/
def isRestricted (f : CronField) : Bool :=
  match f with
  | .star => false
  | _ => true

/-- Cron day-of-week of a date: 0 = Sunday (Python's `weekday()` has
Monday = 0, so shift by one). -/
def cronDow (d : PDate) : Nat :=
  (pyWeekday d + 1) % 7

/-- Day-of-week field test; 7 also denotes Sunday, per the spec's field
table. -/
def dowMatches (f : CronField) (v : Nat) : Bool :=
  fieldMatches f v || (v == 0 && fieldMatches f 7)

/-- Modelled from the spec (§4.1): a candidate instant matches a numeric
schedule when minute, hour and month match, with the standard cron day
rule — when both day-of-month and day-of-week are restricted, either one
matching suffices (OR semantics); otherwise both must match. -/
def matchesAt (s : NumericSched) (t : PDateTime) : Bool :=
  fieldMatches s.minute t.minute && fieldMatches s.hour t.hour &&
  fieldMatches s.month t.date.month &&
  (if isRestricted s.dom && isRestricted s.dow then
    fieldMatches s.dom t.date.day || dowMatches s.dow (cronDow t.date)
  else
    fieldMatches s.dom t.date.day && dowMatches s.dow (cronDow t.date))

/-- One minute later (`timedelta(minutes=1)` at minute granularity). -/
def addMinute (t : PDateTime) : PDateTime :=
  if t.minute < 59 then ⟨t.date, t.hour, t.minute + 1⟩
  else if t.hour < 23 then ⟨t.date, t.hour + 1, 0⟩
  else ⟨nextDay t.date, 0, 0⟩

/-- Modelled from the spec (§4.1): minute-by-minute forward search from
the reference instant, bounded by a fuel of about four years of minutes —
mirroring the bounded search of the external `croniter` library, which is
not part of this repository's sources. -/
def searchNumeric (s : NumericSched) : PDateTime → Nat → Option PDateTime
  | _, 0 => none
  | t, fuel + 1 =>
      let c := addMinute t
      if matchesAt s c then some c else searchNumeric s c fuel

/-- Search bound: a little over four years of simulated minutes. -/
def searchFuel : Nat := 2200000

/-- Hour-carrying increment (`timedelta(hours=1)` on a valid instant). -/
def addHour (t : PDateTime) : PDateTime :=
  if t.hour < 23 then ⟨t.date, t.hour + 1, t.minute⟩
  else ⟨nextDay t.date, 0, t.minute⟩

/-- From `show_job_statistics`: next run of `@hourly` is
`now.replace(minute=0, second=0) + timedelta(hours=1)`. -/
def hourlyNext (t : PDateTime) : PDateTime :=
  addHour ⟨t.date, t.hour, 0⟩

/-- From `show_job_statistics`: next run of `@daily` is
`now.replace(hour=0, minute=0, second=0) + timedelta(days=1)`. -/
def dailyNext (t : PDateTime) : PDateTime :=
  ⟨nextDay t.date, 0, 0⟩

/-- From `show_job_statistics`: next run of `@weekly` is midnight plus
`days_until_sunday` days, where `days_until_sunday = (6 - weekday) % 7`,
replaced by 7 when that is 0. -/
def weeklyNext (t : PDateTime) : PDateTime :=
  let k0 := (6 - pyWeekday t.date) % 7
  let k := if k0 = 0 then 7 else k0
  ⟨addDays t.date k, 0, 0⟩

/-- From `show_job_statistics`: next run of `@monthly` is the first day
of the current month at midnight with the month advanced by one, rolling
December into January of the following year. -/
def monthlyNext (t : PDateTime) : PDateTime :=
  if t.date.month = 12 then ⟨⟨t.date.year + 1, 1, 1⟩, 0, 0⟩
  else ⟨⟨t.date.year, t.date.month + 1, 1⟩, 0, 0⟩

/-- Modelled from the spec: the library's `@yearly` next occurrence —
midnight on January 1 of the following year (the `0 0 1 1 *` search). -/
def yearlyNext (t : PDateTime) : PDateTime :=
  ⟨⟨t.date.year + 1, 1, 1⟩, 0, 0⟩

/-- NextOccurrence of a schedule expression after a reference instant.
`@reboot` has no occurrence; the four plain symbolic kinds follow the
calendar arithmetic of `show_job_statistics`; `@midnight` is the spec's
daily equivalent and `@yearly` the library's January-1 rule (modelled
from the spec); numeric schedules use the bounded forward search. -/
def nextOccurrence (e : SchedExpr) (t : PDateTime) : Option PDateTime :=
  match e with
  | .symbolic .reboot => none
  | .symbolic .hourly => some (hourlyNext t)
  | .symbolic .daily => some (dailyNext t)
  | .symbolic .weekly => some (weeklyNext t)
  | .symbolic .monthly => some (monthlyNext t)
  | .symbolic .yearly => some (yearlyNext t)
  | .symbolic .midnight => some (dailyNext t)
  | .numeric s => searchNumeric s t searchFuel

/-- The fields of a job row that the next-run projector reads: the
command and user (displayed), the schedule, `job['enabled']`, and
whether `job['job']` — the backing `python-crontab` handle — is present
(it is absent for periodic scripts and for fallback-parsed entries). -/
structure PJob where
  command : String
  user : String
  sched : SchedExpr
  enabled : Bool
  handle : Bool
deriving DecidableEq, Repr

/-- A next-run row: original list position (a ghost index used to state
the stable tie-break), the occurrence instant, and the job. -/
abbrev Run := Nat × PDateTime × PJob

/-- The projection loop of `show_job_statistics`: a row is produced only
when the job has a backing handle AND is enabled
(`if job['job'] and job['enabled']`); the instant is the schedule's next
occurrence; `@reboot` (surfaced separately as "runs at next boot") and a
fruitless numeric search produce no row; jobs without a handle are
skipped outright. -/
def nextRunsAux (now : PDateTime) : Nat → List PJob → List Run
  | _, [] => []
  | i, j :: js =>
      (if j.handle && j.enabled then
        match nextOccurrence j.sched now with
        | some r => [(i, r, j)]
        | none => []
      else []) ++ nextRunsAux now (i + 1) js

/-- Next-run rows of a job list, indexed from position 0. -/
def nextRuns (jobs : List PJob) (now : PDateTime) : List Run :=
  nextRunsAux now 0 jobs

/-- Insert a run after every run whose instant is earlier or equal — the
position Python's stable `list.sort` gives a newly considered element. -/
def insertRun (x : Run) : List Run → List Run
  | [] => [x]
  | y :: ys => if dtLeB y.2.1 x.2.1 then y :: insertRun x ys else x :: y :: ys

/-- Left fold of stable insertion. -/
def sortRunsAux : List Run → List Run → List Run
  | acc, [] => acc
  | acc, x :: xs => sortRunsAux (insertRun x acc) xs

/-- Stable sort by occurrence instant, the model of
`next_runs.sort(key=lambda x: x[0])`. -/
def sortRuns (l : List Run) : List Run :=
  sortRunsAux [] l

/-- Sorted by instant with the stable tie-break: strictly increasing in
the pair (instant, original position). -/
def RunOrdered (l : List Run) : Prop :=
  l.Pairwise (fun a b => dtLtB a.2.1 b.2.1 = true ∨
    (a.2.1 = b.2.1 ∧ a.1 < b.1))

/-- The displayed projection of `show_job_statistics`: sort the run rows
by instant, keep the first 10 (`next_runs[:10]`), display only rows whose
instant lies strictly in the future, and show (instant, job). -/
def projectUpcoming (jobs : List PJob) (now : PDateTime) :
    List (PDateTime × PJob) :=
  (((sortRuns (nextRuns jobs now)).take 10).filter
    (fun x => dtLtB now x.2.1)).map (fun x => (x.2.1, x.2.2))

/-- What the spec (§4.1) prescribes for the four plain symbolic kinds,
stated over the embedded `nextOccurrence`: hourly yields the next hour
boundary (minute zero, strictly after the reference, at most one hour
ahead); daily yields the next midnight (at most one day ahead); weekly
yields the next Sunday midnight (Python weekday 6, at most seven days
ahead), a full seven days ahead when the reference is itself exactly a
Sunday midnight; monthly yields midnight on the first day of the next
calendar month, December of year Y rolling to January of year Y+1. -/
def SymbolicNextSpec (t : PDateTime) : Prop :=
  (∃ r, nextOccurrence (SchedExpr.symbolic SymKind.hourly) t = some r ∧
    r.minute = 0 ∧ dtLtB t r = true ∧ dtLeB r (addHour t) = true) ∧
  (∃ r, nextOccurrence (SchedExpr.symbolic SymKind.daily) t = some r ∧
    r.hour = 0 ∧ r.minute = 0 ∧ dtLtB t r = true ∧
    dtLeB r ⟨nextDay t.date, t.hour, t.minute⟩ = true) ∧
  (∃ r, nextOccurrence (SchedExpr.symbolic SymKind.weekly) t = some r ∧
    pyWeekday r.date = 6 ∧ r.hour = 0 ∧ r.minute = 0 ∧ dtLtB t r = true ∧
    dtLeB r ⟨addDays t.date 7, t.hour, t.minute⟩ = true ∧
    (pyWeekday t.date = 6 ∧ t.hour = 0 ∧ t.minute = 0 →
      r = ⟨addDays t.date 7, 0, 0⟩)) ∧
  (∃ r, nextOccurrence (SchedExpr.symbolic SymKind.monthly) t = some r ∧
    r.date.day = 1 ∧ r.hour = 0 ∧ r.minute = 0 ∧ dtLtB t r = true ∧
    (t.date.month = 12 → r.date.year = t.date.year + 1 ∧ r.date.month = 1) ∧
    (t.date.month ≠ 12 → r.date.year = t.date.year ∧
      r.date.month = t.date.month + 1))

/-- Python whitespace characters, as `str.split`/`str.strip` treat them. -/
def isWsChar (c : Char) : Bool :=
  c == ' ' || c == '\t' || c == '\n' || c == '\r' ||
  c == '\x0b' || c == '\x0c'

/-- Negation of the whitespace test, for token runs. -/
def notWsCh (c : Char) : Bool :=
  !(isWsChar c)

/-- Python `str.strip()` on a character list. -/
def stripCh (l : List Char) : List Char :=
  ((l.dropWhile isWsChar).reverse.dropWhile isWsChar).reverse

/-- Python `str.strip()`. -/
def pyStrip (s : String) : String :=
  ⟨stripCh s.data⟩

/-- Separator skipping of `str.split(None, ...)`. -/
def skipWsCh (l : List Char) : List Char :=
  l.dropWhile isWsChar

/-- Python `str.split(None, maxsplit)` on a character list: skip leading
whitespace; while splits remain, emit the maximal non-whitespace run and
continue after it; once `maxsplit` is exhausted, the remainder with its
leading whitespace removed is the final element (kept whole, internal
whitespace and all). -/
def pySplitCh : Nat → List Char → List (List Char)
  | 0, s =>
      let s1 := skipWsCh s
      if s1.isEmpty then [] else [s1]
  | m + 1, s =>
      let s1 := skipWsCh s
      if s1.isEmpty then []
      else s1.takeWhile notWsCh :: pySplitCh m (s1.dropWhile notWsCh)

/-- Does the (already stripped) string start with `#`? -/
def startsHash (s : String) : Bool :=
  match s.data with
  | [] => false
  | c :: _ => c == '#'

/-- Single-space joining of fields (`' '.join(parts[:5])`). -/
def joinSpaceCh : List (List Char) → List Char
  | [] => []
  | [x] => x
  | x :: y :: r => x ++ ' ' :: joinSpaceCh (y :: r)

/-- The job dictionary rows built by `list_all_jobs` and its helpers:
command, schedule string, enabled flag, comment, user, source tag, and
whether the `job` key carries a backing `python-crontab` object
(`handle = false` models `'job': None`). -/
structure Job where
  command : String
  schedule : String
  enabled : Bool
  comment : String
  user : String
  source : String
  handle : Bool
deriving DecidableEq, Repr

/-- One line of `_manual_parse_cron_d_file`: strip it; skip blank lines
and `#`-comment lines; split on the first six whitespace runs; a line
with fewer than seven parts yields nothing; otherwise the first five
parts joined by single spaces become the schedule, the sixth the user,
and the seventh — the remainder of the line, internal whitespace
intact — the command. -/
def manualParseLine (filename : String) (line : String) : List Job :=
  let st := pyStrip line
  if st = "" ∨ startsHash st = true then []
  else
    let parts := pySplitCh 6 st.data
    if 7 ≤ parts.length then
      [{ command := ⟨parts.getD 6 []⟩,
         schedule := ⟨joinSpaceCh (parts.take 5)⟩,
         enabled := true,
         comment := "Aus " ++ filename,
         user := ⟨parts.getD 5 []⟩,
         source := "cron.d/" ++ filename,
         handle := false }]
    else []

/-- `_manual_parse_cron_d_file` over the lines of a file. -/
def manualParseCronD (filename : String) : List String → List Job
  | [] => []
  | l :: ls => manualParseLine filename l ++ manualParseCronD filename ls

/-- A structured job row as the external `python-crontab` library yields
it from a drop-in file; the library is outside this repository, so its
rows are taken as given. -/
structure TabEntry where
  command : String
  schedule : String
  enabled : Bool
  comment : String
  user : String
deriving DecidableEq, Repr

/-- A directory entry of /etc/cron.d as `_list_cron_d_jobs` examines it:
name, regular-file flag, the structured parse outcome (`none` models
`CronTab(tabfile=...)` raising), and the file's lines for the fallback
parser. -/
structure DirEntry where
  name : String
  isFile : Bool
  parsed : Option (List TabEntry)
  lines : List String
deriving DecidableEq, Repr

/-- Job row built from one structured drop-in entry, exactly as
`_list_cron_d_jobs` builds it (comment prefixed by the file name,
source tagged with the file name, backing handle present). -/
def cronDStructJob (filename : String) (e : TabEntry) : Job :=
  { command := e.command, schedule := e.schedule, enabled := e.enabled,
    comment := filename ++ ": " ++ e.comment, user := e.user,
    source := "cron.d/" ++ filename, handle := true }

/-- The file names `_list_cron_d_jobs` skips. -/
def cronDSkipNames : List String :=
  [".", "..", ".placeholder", "README"]

/-- What one directory entry contributes to the /etc/cron.d scan:
skipped names and non-files contribute nothing; a structured parse
contributes its rows; a failed structured parse falls back to the
line-oriented parser scoped to that file. -/
def cronDEntryJobs (e : DirEntry) : List Job :=
  if e.name ∈ cronDSkipNames then []
  else if e.isFile = false then []
  else
    match e.parsed with
    | some tjs => tjs.map (cronDStructJob e.name)
    | none => manualParseCronD e.name e.lines

/-- `_list_cron_d_jobs`: fold over the directory listing; every entry is
handled inside its own try/except, so each entry contributes
independently of the others. -/
def listCronDJobs : List DirEntry → List Job
  | [] => []
  | e :: es => cronDEntryJobs e ++ listCronDJobs es

/-- The four periodic directories. -/
inductive Period
  | hourly
  | daily
  | weekly
  | monthly
deriving DecidableEq, Repr

/-- Directory-name suffix of a period. -/
def periodName : Period → String
  | .hourly => "hourly"
  | .daily => "daily"
  | .weekly => "weekly"
  | .monthly => "monthly"

/-- Python `period.capitalize()` for the four period names. -/
def periodCap : Period → String
  | .hourly => "Hourly"
  | .daily => "Daily"
  | .weekly => "Weekly"
  | .monthly => "Monthly"

/-- A directory entry of /etc/cron.<period>: name, regular-file flag,
executable flag, and leading content bytes. -/
structure PFile where
  name : String
  isFile : Bool
  isExec : Bool
  content : List Char
deriving DecidableEq, Repr

/-- Does the file name start with a dot? -/
def startsDot (s : String) : Bool :=
  match s.data with
  | [] => false
  | c :: _ => c == '.'

/-- `_list_periodic_jobs` keeps a file iff it is not hidden, is a
regular file, is executable, and its first two bytes are `#!`. -/
def periodicKeeps (f : PFile) : Bool :=
  !startsDot f.name && f.isFile && f.isExec &&
  f.content.take 2 == ['#', '!']

/-- The job row `_list_periodic_jobs` builds for a kept script. -/
def periodicJob (p : Period) (f : PFile) : Job :=
  { command := "/etc/cron." ++ periodName p ++ "/" ++ f.name,
    schedule := "@" ++ periodName p,
    enabled := true,
    comment := periodCap p ++ " job",
    user := "root",
    source := "periodic-" ++ periodName p,
    handle := false }

/-- The inner loop of `_list_periodic_jobs` over one directory. -/
def listPeriodicAux (p : Period) : List PFile → List Job
  | [] => []
  | f :: fs =>
      (if periodicKeeps f then [periodicJob p f] else []) ++
      listPeriodicAux p fs

/-- `_list_periodic_jobs` over the four fixed directories, in the fixed
hourly, daily, weekly, monthly order. -/
def listPeriodicJobs (files : Period → List PFile) : List Job :=
  listPeriodicAux .hourly (files .hourly) ++
  listPeriodicAux .daily (files .daily) ++
  listPeriodicAux .weekly (files .weekly) ++
  listPeriodicAux .monthly (files .monthly)

/-- The `system_cron` slot: `None`, or the rows of a loaded table. -/
inductive SysCron
  | noTab
  | loaded (jobs : List Job)
deriving DecidableEq, Repr

/-- `_manual_parse_system_crontab`: the declared fallback parser for
/etc/crontab.  Its body reads the file's lines and then sets
`system_cron` to `None` — a stub that discards every line. -/
def manualParseSystemCrontab (_content : String) : SysCron :=
  SysCron.noTab

/-- `_load_system_crontabs`: a missing file leaves the slot `None` (no
error); blank content leaves it `None`; a successful structured parse
(`CronTab(tabfile='/etc/crontab')`, given as `parsed`) loads the rows; a
failing structured parse falls to the manual stub. -/
def loadSystemCrontab (fileExists : Bool) (content : String)
    (parsed : Option (List Job)) : SysCron :=
  if fileExists = false then SysCron.noTab
  else if pyStrip content = "" then SysCron.noTab
  else
    match parsed with
    | some js => SysCron.loaded js
    | none => manualParseSystemCrontab content

/-- The `System-Crontab` branch of `list_all_jobs`: an unloaded slot
yields the empty list. -/
def listSystemJobs : SysCron → List Job
  | SysCron.noTab => []
  | SysCron.loaded js => js

/-- Is `pat` a leading segment of the character list? -/
def startsSeq : List Char → List Char → Bool
  | [], _ => true
  | _ :: _, [] => false
  | p :: ps, c :: cs => p == c && startsSeq ps cs

/-- Substring containment on character lists (Python's `in`). -/
def containsSeq (pat : List Char) : List Char → Bool
  | [] => pat.isEmpty
  | c :: cs => startsSeq pat (c :: cs) || containsSeq pat cs

/-- Python's `needle in hay` on strings. -/
def strContains (hay pat : String) : Bool :=
  containsSeq pat.data hay.data

/-- Python `str.lower()` restricted to ASCII case mapping, character by
character. -/
def toLowerStr (s : String) : String :=
  ⟨s.data.map Char.toLower⟩

/-- The match test of `search_jobs`: the lowered keyword occurs in the
lowered command or in the lowered comment. -/
def jobMatches (keyword : String) (j : Job) : Bool :=
  strContains (toLowerStr j.command) (toLowerStr keyword) ||
  strContains (toLowerStr j.comment) (toLowerStr keyword)

/-- The per-source collection loop of `search_jobs`. -/
def searchLoop (keyword : String) : List (List Job) → List Job
  | [] => []
  | js :: rest => js.filter (jobMatches keyword) ++ searchLoop keyword rest

/-- `search_jobs`: an empty keyword returns before any source is read
(a no-op, never "match all"); otherwise every source's jobs are kept
exactly when the case-insensitive substring test succeeds. -/
def searchJobs (sources : List (List Job)) (keyword : String) : List Job :=
  if keyword = "" then [] else searchLoop keyword sources

/-- The frequency buckets of `show_job_statistics`. -/
inductive FreqBucket
  | minute
  | hourly
  | daily
  | weekly
  | monthly
  | other
deriving DecidableEq, Repr

/-- The frequency bucketing of `show_job_statistics`, applied to the
job's schedule string: equality for the every-minute shape; Python
substring `in` for the hourly, weekly and monthly shapes; membership in
a three-string list for daily; the symbolic names where the branch
writes them; `other` for everything else. -/
def freqBucket (schedule : String) : FreqBucket :=
  if schedule = "* * * * *" then FreqBucket.minute
  else if strContains schedule "0 * * * *" = true ∨ schedule = "@hourly" then
    FreqBucket.hourly
  else if schedule = "0 0 * * *" ∨ schedule = "@daily" ∨
      schedule = "@midnight" then FreqBucket.daily
  else if schedule = "@weekly" ∨ strContains schedule "0 0 * * 0" = true then
    FreqBucket.weekly
  else if schedule = "@monthly" ∨ strContains schedule "0 0 1 * *" = true then
    FreqBucket.monthly
  else FreqBucket.other


theorem dateLtB_iff (a b : PDate) :
    dateLtB a b = true ↔
      (a.year < b.year ∨ (a.year = b.year ∧ (a.month < b.month ∨
        (a.month = b.month ∧ a.day < b.day)))) := by
  cases a; cases b
  simp [dateLtB]

theorem dtLtB_iff (a b : PDateTime) :
    dtLtB a b = true ↔
      (dateLtB a.date b.date = true ∨ (a.date = b.date ∧ (a.hour < b.hour ∨
        (a.hour = b.hour ∧ a.minute < b.minute)))) := by
  cases a; cases b
  simp [dtLtB]

theorem dateLtB_trans {a b c : PDate} (h1 : dateLtB a b = true)
    (h2 : dateLtB b c = true) : dateLtB a c = true := by
  rw [dateLtB_iff] at *
  omega

theorem dtLtB_trans {a b c : PDateTime} (h1 : dtLtB a b = true)
    (h2 : dtLtB b c = true) : dtLtB a c = true := by
  obtain ⟨⟨y1, m1, d1⟩, h1h, h1m⟩ := a
  obtain ⟨⟨y2, m2, d2⟩, h2h, h2m⟩ := b
  obtain ⟨⟨y3, m3, d3⟩, h3h, h3m⟩ := c
  simp only [dtLtB, dateLtB, Bool.or_eq_true, Bool.and_eq_true,
    decide_eq_true_eq, beq_iff_eq, PDate.mk.injEq] at h1 h2 ⊢
  omega

theorem dateLtB_nextDay (d : PDate) : dateLtB d (nextDay d) = true := by
  rw [dateLtB_iff]
  unfold nextDay
  split
  · dsimp only
    omega
  · split
    · dsimp only
      omega
    · dsimp only
      omega

theorem one_le_daysInMonth (y m : Nat) : 1 ≤ daysInMonth y m := by
  unfold daysInMonth
  split
  · split
    · omega
    · omega
  · split
    · omega
    · omega

theorem validDate_nextDay {d : PDate} (h : validDate d = true) :
    validDate (nextDay d) = true := by
  have ha := one_le_daysInMonth d.year (d.month + 1)
  have hb := one_le_daysInMonth (d.year + 1) 1
  simp only [validDate, Bool.and_eq_true, decide_eq_true_eq] at h
  unfold nextDay
  split
  · simp only [validDate, Bool.and_eq_true, decide_eq_true_eq]
    omega
  · split
    · simp only [validDate, Bool.and_eq_true, decide_eq_true_eq]
      omega
    · simp only [validDate, Bool.and_eq_true, decide_eq_true_eq]
      omega

theorem dateLtB_addDays (d : PDate) (n : Nat) (hn : 1 ≤ n) :
    dateLtB d (addDays d n) = true := by
  induction n generalizing d with
  | zero => omega
  | succ k ih =>
      cases Nat.eq_or_lt_of_le hn with
      | inl h =>
          have hk : k = 0 := by omega
          subst hk
          simpa [addDays] using dateLtB_nextDay d
      | inr h =>
          have hk : 1 ≤ k := by omega
          have := ih (nextDay d) hk
          exact dateLtB_trans (dateLtB_nextDay d) (by simpa [addDays] using this)

theorem addDays_add (d : PDate) (a b : Nat) :
    addDays d (a + b) = addDays (addDays d a) b := by
  induction a generalizing d with
  | zero => simp [addDays]
  | succ k ih =>
      have h : k + 1 + b = (k + b) + 1 := by omega
      rw [h]
      show addDays (nextDay d) (k + b) = addDays (addDays (nextDay d) k) b
      exact ih (nextDay d)

set_option maxHeartbeats 2000000 in
theorem daysBeforeYear_succ (y : Nat) :
    daysBeforeYear (y + 1) = daysBeforeYear y + daysInYear y := by
  have hl : isLeap y = true ↔ ((y % 4 = 0 ∧ ¬ y % 100 = 0) ∨ y % 400 = 0) := by
    simp [isLeap]
  unfold daysBeforeYear
  cases h : isLeap y
  · have h365 : daysInYear y = 365 := by simp [daysInYear, h]
    rw [h365]
    rw [h] at hl
    simp only [Bool.false_eq_true, false_iff, not_or, not_and,
      Decidable.not_not] at hl
    omega
  · have h366 : daysInYear y = 366 := by simp [daysInYear, h]
    rw [h366]
    rw [h] at hl
    simp only [true_iff] at hl
    omega

theorem daysBeforeMonth_succ (y m : Nat) (hm : 1 ≤ m) :
    daysBeforeMonth y (m + 1) = daysBeforeMonth y m + daysInMonth y m := by
  cases m with
  | zero => omega
  | succ k => simp [daysBeforeMonth]

theorem daysBeforeMonth_13 (y : Nat) :
    daysBeforeMonth y 13 = daysInYear y := by
  cases hl : isLeap y <;>
    simp [daysBeforeMonth, daysInMonth, daysInYear, hl]

theorem toOrdinal_nextDay {d : PDate} (h : validDate d = true) :
    toOrdinal (nextDay d) = toOrdinal d + 1 := by
  simp only [validDate, Bool.and_eq_true, decide_eq_true_eq] at h
  obtain ⟨⟨⟨h1, h2⟩, h3⟩, h4⟩ := h
  have hdim := one_le_daysInMonth d.year d.month
  unfold nextDay
  split
  · simp only [toOrdinal]
    omega
  · split
    · have hstep := daysBeforeMonth_succ d.year d.month h1
      simp only [toOrdinal]
      omega
    · have hm12 : d.month = 12 := by omega
      have h13 := daysBeforeMonth_13 d.year
      have hstep : daysBeforeMonth d.year 13 =
          daysBeforeMonth d.year 12 + daysInMonth d.year 12 := by
        simpa using daysBeforeMonth_succ d.year 12 (by omega)
      have hby := daysBeforeYear_succ d.year
      have hbm1 : daysBeforeMonth (d.year + 1) 1 = 0 := by
        simp [daysBeforeMonth]
      simp only [toOrdinal]
      rw [← hm12] at hstep
      omega

theorem validDate_addDays {d : PDate} (h : validDate d = true) (n : Nat) :
    validDate (addDays d n) = true := by
  induction n generalizing d with
  | zero => simpa [addDays] using h
  | succ k ih => simpa [addDays] using ih (validDate_nextDay h)

theorem toOrdinal_addDays {d : PDate} (h : validDate d = true) (n : Nat) :
    toOrdinal (addDays d n) = toOrdinal d + n := by
  induction n generalizing d with
  | zero => simp [addDays]
  | succ k ih =>
      have := ih (validDate_nextDay h)
      simp only [addDays] at this ⊢
      rw [this, toOrdinal_nextDay h]
      omega

theorem pyWeekday_addDays {d : PDate} (h : validDate d = true) (n : Nat) :
    pyWeekday (addDays d n) = (pyWeekday d + n) % 7 := by
  unfold pyWeekday
  rw [toOrdinal_addDays h]
  omega

theorem pyWeekday_lt (d : PDate) : pyWeekday d < 7 := by
  unfold pyWeekday
  omega

set_option maxRecDepth 40000 in
theorem pyWeekday_epoch : pyWeekday ⟨1970, 1, 1⟩ = 3 := by decide

theorem dtLtB_of_dateLtB {d1 d2 : PDate} (h : dateLtB d1 d2 = true)
    (h1 m1 h2 m2 : Nat) :
    dtLtB ⟨d1, h1, m1⟩ ⟨d2, h2, m2⟩ = true := by
  simp [dtLtB, h]

theorem dtLtB_addMinute (t : PDateTime) : dtLtB t (addMinute t) = true := by
  obtain ⟨d, h, m⟩ := t
  unfold addMinute
  split
  · simp [dtLtB]
  · split
    · simp [dtLtB]
    · exact dtLtB_of_dateLtB (dateLtB_nextDay d) h m 0 0

theorem searchNumeric_gt {s : NumericSched} :
    ∀ (fuel : Nat) (t u : PDateTime),
      searchNumeric s t fuel = some u → dtLtB t u = true := by
  intro fuel
  induction fuel with
  | zero => intro t u h; simp [searchNumeric] at h
  | succ k ih =>
      intro t u h
      simp only [searchNumeric] at h
      split at h
      · cases h
        exact dtLtB_addMinute t
      · exact dtLtB_trans (dtLtB_addMinute t) (ih (addMinute t) u h)

theorem hourlyNext_gt (t : PDateTime) : dtLtB t (hourlyNext t) = true := by
  obtain ⟨d, h, m⟩ := t
  unfold hourlyNext addHour
  dsimp only
  split
  · simp [dtLtB]
  · exact dtLtB_of_dateLtB (dateLtB_nextDay d) h m 0 0

theorem dailyNext_gt (t : PDateTime) : dtLtB t (dailyNext t) = true := by
  exact dtLtB_of_dateLtB (dateLtB_nextDay t.date) t.hour t.minute 0 0

theorem weeklyNext_gt (t : PDateTime) : dtLtB t (weeklyNext t) = true := by
  unfold weeklyNext
  have hk : 1 ≤ (if (6 - pyWeekday t.date) % 7 = 0 then 7
      else (6 - pyWeekday t.date) % 7) := by
    split
    · omega
    · omega
  exact dtLtB_of_dateLtB (dateLtB_addDays t.date _ hk) t.hour t.minute 0 0

theorem monthlyNext_gt (t : PDateTime) : dtLtB t (monthlyNext t) = true := by
  unfold monthlyNext
  split
  next h12 =>
    refine dtLtB_of_dateLtB ?_ t.hour t.minute 0 0
    rw [dateLtB_iff]
    dsimp only
    omega
  next h12 =>
    refine dtLtB_of_dateLtB ?_ t.hour t.minute 0 0
    rw [dateLtB_iff]
    dsimp only
    omega

theorem yearlyNext_gt (t : PDateTime) : dtLtB t (yearlyNext t) = true := by
  refine dtLtB_of_dateLtB ?_ t.hour t.minute 0 0
  rw [dateLtB_iff]
  dsimp only
  omega

theorem nextOccurrence_gt {e : SchedExpr} {t u : PDateTime}
    (h : nextOccurrence e t = some u) : dtLtB t u = true := by
  cases e with
  | numeric s => exact searchNumeric_gt searchFuel t u h
  | symbolic k =>
      cases k <;> simp only [nextOccurrence] at h <;> cases h
      case symbolic.hourly.refl => exact hourlyNext_gt t
      case symbolic.daily.refl => exact dailyNext_gt t
      case symbolic.weekly.refl => exact weeklyNext_gt t
      case symbolic.monthly.refl => exact monthlyNext_gt t
      case symbolic.yearly.refl => exact yearlyNext_gt t
      case symbolic.midnight.refl => exact dailyNext_gt t

theorem dtLtB_total (a b : PDateTime) :
    dtLtB a b = true ∨ a = b ∨ dtLtB b a = true := by
  obtain ⟨⟨y1, m1, d1⟩, h1, mi1⟩ := a
  obtain ⟨⟨y2, m2, d2⟩, h2, mi2⟩ := b
  simp only [dtLtB, dateLtB, Bool.or_eq_true, Bool.and_eq_true,
    decide_eq_true_eq, beq_iff_eq, PDate.mk.injEq, PDateTime.mk.injEq]
  omega

theorem dtLeB_iff (a b : PDateTime) :
    dtLeB a b = true ↔ (dtLtB a b = true ∨ a = b) := by
  simp [dtLeB]

theorem dtLtB_of_not_dtLeB {a b : PDateTime} (h : ¬ dtLeB a b = true) :
    dtLtB b a = true := by
  have h2 : ¬ (dtLtB a b = true ∨ a = b) := by
    rw [← dtLeB_iff]
    exact h
  rcases dtLtB_total a b with h1 | h1 | h1
  · exact absurd (Or.inl h1) h2
  · exact absurd (Or.inr h1) h2
  · exact h1

theorem mem_insertRun {z x : Run} : ∀ {l : List Run},
    (z ∈ insertRun x l ↔ z = x ∨ z ∈ l) := by
  intro l
  induction l with
  | nil => simp [insertRun]
  | cons y ys ih =>
      simp only [insertRun]
      split
      · simp only [List.mem_cons, ih]
        tauto
      · simp only [List.mem_cons]

theorem length_insertRun (x : Run) : ∀ (l : List Run),
    (insertRun x l).length = l.length + 1 := by
  intro l
  induction l with
  | nil => simp [insertRun]
  | cons y ys ih =>
      simp only [insertRun]
      split
      · simp only [List.length_cons, ih]
      · simp only [List.length_cons]

theorem insertRun_ordered {x : Run} : ∀ {l : List Run},
    RunOrdered l → (∀ y ∈ l, y.1 < x.1) → RunOrdered (insertRun x l) := by
  intro l
  induction l with
  | nil =>
      intro _ _
      simp [insertRun, RunOrdered]
  | cons y ys ih =>
      intro hord hidx
      rw [RunOrdered, List.pairwise_cons] at hord
      obtain ⟨hy, hys⟩ := hord
      simp only [insertRun]
      split
      next hle =>
        rw [RunOrdered, List.pairwise_cons]
        constructor
        · intro z hz
          rcases mem_insertRun.mp hz with hz | hz
          · subst hz
            rcases (dtLeB_iff _ _).mp hle with hlt | heq
            · exact Or.inl hlt
            · exact Or.inr ⟨heq, hidx y (List.mem_cons_self y ys)⟩
          · exact hy z hz
        · exact ih hys (fun z hz => hidx z (List.mem_cons_of_mem _ hz))
      next hle =>
        have hxy : dtLtB x.2.1 y.2.1 = true := dtLtB_of_not_dtLeB hle
        rw [RunOrdered, List.pairwise_cons]
        constructor
        · intro z hz
          rcases List.mem_cons.mp hz with hz | hz
          · subst hz
            exact Or.inl hxy
          · rcases hy z hz with hlt | ⟨heq, _⟩
            · exact Or.inl (dtLtB_trans hxy hlt)
            · exact Or.inl (by rw [← heq]; exact hxy)
        · rw [List.pairwise_cons]
          exact ⟨hy, hys⟩

theorem sortRunsAux_mem {z : Run} : ∀ (l acc : List Run),
    (z ∈ sortRunsAux acc l ↔ z ∈ acc ∨ z ∈ l) := by
  intro l
  induction l with
  | nil =>
      intro acc
      simp [sortRunsAux]
  | cons x xs ih =>
      intro acc
      simp only [sortRunsAux]
      rw [ih, mem_insertRun]
      simp only [List.mem_cons]
      tauto

theorem sortRunsAux_length : ∀ (l acc : List Run),
    (sortRunsAux acc l).length = acc.length + l.length := by
  intro l
  induction l with
  | nil =>
      intro acc
      simp [sortRunsAux]
  | cons x xs ih =>
      intro acc
      simp only [sortRunsAux]
      rw [ih, length_insertRun]
      simp only [List.length_cons]
      omega

theorem sortRunsAux_ordered : ∀ (l acc : List Run),
    RunOrdered acc → (∀ y ∈ acc, ∀ x ∈ l, y.1 < x.1) →
    l.Pairwise (fun a b => a.1 < b.1) → RunOrdered (sortRunsAux acc l) := by
  intro l
  induction l with
  | nil =>
      intro acc h _ _
      simpa [sortRunsAux] using h
  | cons x xs ih =>
      intro acc hord hcross hpair
      rw [List.pairwise_cons] at hpair
      obtain ⟨hx, hxs⟩ := hpair
      simp only [sortRunsAux]
      apply ih
      · exact insertRun_ordered hord
          (fun y hy => hcross y hy x (List.mem_cons_self x xs))
      · intro y hy z hz
        rcases mem_insertRun.mp hy with hy | hy
        · subst hy
          exact hx z hz
        · exact hcross y hy z (List.mem_cons_of_mem _ hz)
      · exact hxs

theorem nextRunsAux_idx {now : PDateTime} :
    ∀ (js : List PJob) (i : Nat) (x : Run),
      x ∈ nextRunsAux now i js → i ≤ x.1 := by
  intro js
  induction js with
  | nil =>
      intro i x hx
      simp [nextRunsAux] at hx
  | cons j js ih =>
      intro i x hx
      simp only [nextRunsAux, List.mem_append] at hx
      rcases hx with hx | hx
      · split at hx
        · split at hx
          · simp only [List.mem_singleton] at hx
            subst hx
            exact Nat.le_refl i
          · simp at hx
        · simp at hx
      · have := ih (i + 1) x hx
        omega

theorem nextRunsAux_pairwise {now : PDateTime} :
    ∀ (js : List PJob) (i : Nat),
      (nextRunsAux now i js).Pairwise (fun a b => a.1 < b.1) := by
  intro js
  induction js with
  | nil =>
      intro i
      simp [nextRunsAux]
  | cons j js ih =>
      intro i
      simp only [nextRunsAux]
      rw [List.pairwise_append]
      refine ⟨?_, ih (i + 1), ?_⟩
      · split
        · split
          · simp
          · simp
        · simp
      · intro a ha b hb
        have hbi := nextRunsAux_idx js (i + 1) b hb
        have hai : a.1 = i := by
          split at ha
          · split at ha
            · simp only [List.mem_singleton] at ha
              subst ha
              rfl
            · simp at ha
          · simp at ha
        omega

theorem mem_nextRunsAux {now : PDateTime} :
    ∀ (js : List PJob) (i : Nat) (x : Run),
      x ∈ nextRunsAux now i js →
        x.2.2 ∈ js ∧ x.2.2.handle = true ∧ x.2.2.enabled = true ∧
          nextOccurrence x.2.2.sched now = some x.2.1 := by
  intro js
  induction js with
  | nil =>
      intro i x hx
      simp [nextRunsAux] at hx
  | cons j js ih =>
      intro i x hx
      simp only [nextRunsAux, List.mem_append] at hx
      rcases hx with hx | hx
      · split at hx
        next hga =>
          split at hx
          next r hr =>
            simp only [List.mem_singleton] at hx
            subst hx
            simp only [Bool.and_eq_true] at hga
            exact ⟨List.mem_cons_self j js, hga.1, hga.2, hr⟩
          next => simp at hx
        next => simp at hx
      · obtain ⟨hmem, hh, he, hr⟩ := ih (i + 1) x hx
        exact ⟨List.mem_cons_of_mem j hmem, hh, he, hr⟩

theorem nextRunsAux_complete {now : PDateTime} :
    ∀ (js : List PJob) (i : Nat) (j : PJob) (r : PDateTime),
      j ∈ js → j.handle = true → j.enabled = true →
      nextOccurrence j.sched now = some r →
      ∃ k, (k, r, j) ∈ nextRunsAux now i js := by
  intro js
  induction js with
  | nil =>
      intro i j r hmem
      simp at hmem
  | cons j0 js ih =>
      intro i j r hmem hh he hr
      rcases List.mem_cons.mp hmem with hmem | hmem
      · subst hmem
        refine ⟨i, ?_⟩
        simp only [nextRunsAux, List.mem_append]
        left
        rw [if_pos (by rw [hh, he]; rfl)]
        rw [hr]
        simp
      · obtain ⟨k, hk⟩ := ih (i + 1) j r hmem hh he hr
        refine ⟨k, ?_⟩
        simp only [nextRunsAux, List.mem_append]
        right
        exact hk

theorem dtLeB_refl (a : PDateTime) : dtLeB a a = true := by
  simp [dtLeB]

theorem dtLeB_of_dtLtB {a b : PDateTime} (h : dtLtB a b = true) :
    dtLeB a b = true := by
  simp [dtLeB, h]

theorem dtLeB_mk_fields {D : PDate} {h1 m1 h2 m2 : Nat}
    (hc : h1 < h2 ∨ (h1 = h2 ∧ m1 ≤ m2)) :
    dtLeB ⟨D, h1, m1⟩ ⟨D, h2, m2⟩ = true := by
  rcases hc with hc | ⟨he, hm⟩
  · exact dtLeB_of_dtLtB (by simp [dtLtB, hc])
  · subst he
    rcases Nat.eq_or_lt_of_le hm with hm | hm
    · subst hm
      exact dtLeB_refl _
    · exact dtLeB_of_dtLtB (by simp [dtLtB, hm])

theorem sortRuns_ordered (l : List Run)
    (h : l.Pairwise (fun a b => a.1 < b.1)) : RunOrdered (sortRuns l) := by
  unfold sortRuns
  apply sortRunsAux_ordered
  · exact List.Pairwise.nil
  · intro y hy
    simp at hy
  · exact h

theorem sortRuns_mem {z : Run} {l : List Run} :
    z ∈ sortRuns l ↔ z ∈ l := by
  unfold sortRuns
  rw [sortRunsAux_mem]
  simp

theorem sortRuns_length (l : List Run) : (sortRuns l).length = l.length := by
  unfold sortRuns
  rw [sortRunsAux_length]
  simp

/-- C2, amended.  The time-sorted projection of `show_job_statistics`:
runs are sorted ascending by instant with the stable tie-break by
original list position; output is truncated to at most 10 entries; every
output entry belongs to a job that is enabled AND carries a backing
handle (jobs whose `job['job']` is None — periodic scripts and
fallback-parsed entries — are skipped outright, which is where the claim
as frozen fails), is not a reboot job, and pairs the job with its next
occurrence, strictly after `now`; no disabled job ever appears; and when
nothing is truncated, every enabled job with a handle and a next
occurrence does appear. -/
theorem c2_project_upcoming (jobs : List PJob) (now : PDateTime) :
    RunOrdered (sortRuns (nextRuns jobs now)) ∧
    (projectUpcoming jobs now).length ≤ 10 ∧
    (∀ r j, (r, j) ∈ projectUpcoming jobs now →
      j.enabled = true ∧ j.handle = true ∧
      j.sched ≠ SchedExpr.symbolic SymKind.reboot ∧
      nextOccurrence j.sched now = some r ∧ dtLtB now r = true) ∧
    (∀ r j, j.enabled = false → (r, j) ∉ projectUpcoming jobs now) ∧
    ((nextRuns jobs now).length ≤ 10 →
      ∀ j, j ∈ jobs → j.handle = true → j.enabled = true →
        ∀ r, nextOccurrence j.sched now = some r →
          (r, j) ∈ projectUpcoming jobs now) := by
  have hord : RunOrdered (sortRuns (nextRuns jobs now)) :=
    sortRuns_ordered _ (nextRunsAux_pairwise jobs 0)
  have hmemf : ∀ r j, (r, j) ∈ projectUpcoming jobs now →
      j.enabled = true ∧ j.handle = true ∧
      j.sched ≠ SchedExpr.symbolic SymKind.reboot ∧
      nextOccurrence j.sched now = some r ∧ dtLtB now r = true := by
    intro r j hm
    unfold projectUpcoming at hm
    rcases List.mem_map.mp hm with ⟨x, hx, hfx⟩
    have hr : x.2.1 = r := congrArg Prod.fst hfx
    have hj : x.2.2 = j := congrArg Prod.snd hfx
    rcases List.mem_filter.mp hx with ⟨hxt, hxf⟩
    have hxs : x ∈ sortRuns (nextRuns jobs now) := List.mem_of_mem_take hxt
    have hxn : x ∈ nextRuns jobs now := sortRuns_mem.mp hxs
    obtain ⟨_, hh, he, hno⟩ := mem_nextRunsAux jobs 0 x hxn
    rw [hr, hj] at hno
    rw [hj] at hh he
    rw [hr] at hxf
    refine ⟨he, hh, ?_, hno, hxf⟩
    intro hsch
    rw [hsch] at hno
    simp [nextOccurrence] at hno
  refine ⟨hord, ?_, hmemf, ?_, ?_⟩
  · unfold projectUpcoming
    rw [List.length_map]
    calc (((sortRuns (nextRuns jobs now)).take 10).filter
            (fun x => dtLtB now x.2.1)).length
        ≤ ((sortRuns (nextRuns jobs now)).take 10).length :=
          List.length_filter_le _ _
      _ ≤ 10 := by
          rw [List.length_take]
          omega
  · intro r j hdis hm
    have := (hmemf r j hm).1
    rw [hdis] at this
    cases this
  · intro hlen j hj hh he r hno
    obtain ⟨k, hk⟩ := nextRunsAux_complete jobs 0 j r hj hh he hno
    have hks : (k, r, j) ∈ sortRuns (nextRuns jobs now) := sortRuns_mem.mpr hk
    have htake : (sortRuns (nextRuns jobs now)).take 10 =
        sortRuns (nextRuns jobs now) := by
      apply List.take_of_length_le
      rw [sortRuns_length]
      exact hlen
    unfold projectUpcoming
    rw [htake]
    apply List.mem_map.mpr
    refine ⟨(k, r, j), ?_, rfl⟩
    apply List.mem_filter.mpr
    exact ⟨hks, nextOccurrence_gt hno⟩

/-- C2, witness: one enabled handled daily job at a concrete instant is
projected, and the projected pair satisfies every property the theorem
lists. -/
theorem c2_witness :
    nextOccurrence (SchedExpr.symbolic SymKind.daily) ⟨⟨2, 1, 15⟩, 10, 30⟩ =
      some ⟨⟨2, 1, 16⟩, 0, 0⟩ ∧
    dtLtB ⟨⟨2, 1, 15⟩, 10, 30⟩ ⟨⟨2, 1, 16⟩, 0, 0⟩ = true := by
  have h := (c2_project_upcoming
    [⟨"/usr/local/bin/backup.sh", "root", SchedExpr.symbolic SymKind.daily,
      true, true⟩] ⟨⟨2, 1, 15⟩, 10, 30⟩).2.2.1 ⟨⟨2, 1, 16⟩, 0, 0⟩
    ⟨"/usr/local/bin/backup.sh", "root", SchedExpr.symbolic SymKind.daily,
      true, true⟩ (by decide)
  exact ⟨h.2.2.2.1, h.2.2.2.2⟩

/-- C2, counterexample: an enabled job whose backing handle is absent
(exactly the shape of a periodic `@hourly` record or a fallback-parsed
entry) has a next occurrence, yet the projector's output is empty — the
claim that the output contains an entry for every enabled job that is
not a reboot job is false on the code. -/
theorem c2_counterexample :
    (⟨"/etc/cron.hourly/logrotate", "root", SchedExpr.symbolic SymKind.hourly,
      true, false⟩ : PJob).enabled = true ∧
    (nextOccurrence (SchedExpr.symbolic SymKind.hourly)
      ⟨⟨2, 1, 15⟩, 10, 30⟩).isSome = true ∧
    projectUpcoming [⟨"/etc/cron.hourly/logrotate", "root",
      SchedExpr.symbolic SymKind.hourly, true, false⟩]
      ⟨⟨2, 1, 15⟩, 10, 30⟩ = [] := by
  exact ⟨rfl, rfl, rfl⟩

/-- C3: the next occurrence of `@reboot` is always NoOccurrence; any
instant the model returns for any schedule is strictly after the
reference instant, never equal to it; and every symbolic kind other
than reboot does return an instant. -/
theorem c3_next_strictly_after (e : SchedExpr) (t : PDateTime) :
    nextOccurrence (SchedExpr.symbolic SymKind.reboot) t = none ∧
    (∀ u, nextOccurrence e t = some u → dtLtB t u = true) ∧
    (∀ k, k ≠ SymKind.reboot →
      (nextOccurrence (SchedExpr.symbolic k) t).isSome = true) := by
  refine ⟨rfl, ?_, ?_⟩
  · intro u h
    exact nextOccurrence_gt h
  · intro k hk
    cases k
    · exact absurd rfl hk
    · rfl
    · rfl
    · rfl
    · rfl
    · rfl
    · rfl

/-- C3, witness: at a concrete instant, reboot yields NoOccurrence, an
all-wildcard numeric schedule yields the strictly later next minute, and
`@weekly` yields an instant. -/
theorem c3_witness :
    nextOccurrence (SchedExpr.symbolic SymKind.reboot)
      ⟨⟨2, 1, 15⟩, 10, 30⟩ = none ∧
    dtLtB ⟨⟨2, 1, 15⟩, 10, 30⟩ ⟨⟨2, 1, 15⟩, 10, 31⟩ = true ∧
    (nextOccurrence (SchedExpr.symbolic SymKind.weekly)
      ⟨⟨2, 1, 15⟩, 10, 30⟩).isSome = true := by
  obtain ⟨h1, h2, h3⟩ := c3_next_strictly_after
    (SchedExpr.numeric ⟨CronField.star, CronField.star, CronField.star,
      CronField.star, CronField.star⟩) ⟨⟨2, 1, 15⟩, 10, 30⟩
  exact ⟨h1, h2 ⟨⟨2, 1, 15⟩, 10, 31⟩ (by decide),
    h3 SymKind.weekly (by decide)⟩

/-- C4: for the four plain symbolic kinds the embedded next-occurrence
arithmetic of `show_job_statistics` meets the spec's calendar
description (next hour boundary; next midnight; next Sunday midnight
with the full-seven-days rule at an exact Sunday midnight; first of the
next month with the December-to-January rollover). -/
theorem c4_symbolic_calendar (t : PDateTime) (hv : validDT t = true) :
    SymbolicNextSpec t := by
  have hvd : validDate t.date = true := by
    simp only [validDT, Bool.and_eq_true] at hv
    exact hv.1.1
  refine ⟨⟨hourlyNext t, rfl, ?_, hourlyNext_gt t, ?_⟩,
    ⟨dailyNext t, rfl, rfl, rfl, dailyNext_gt t, ?_⟩, ?_, ?_⟩
  · unfold hourlyNext addHour
    dsimp only
    split
    · rfl
    · rfl
  · unfold hourlyNext addHour
    dsimp only
    by_cases hlt : t.hour < 23
    · simp only [if_pos hlt]
      exact dtLeB_mk_fields (Or.inr ⟨rfl, Nat.zero_le _⟩)
    · simp only [if_neg hlt]
      exact dtLeB_mk_fields (Or.inr ⟨rfl, Nat.zero_le _⟩)
  · unfold dailyNext
    rcases Nat.eq_zero_or_pos t.hour with h | h
    · exact dtLeB_mk_fields (Or.inr ⟨h.symm, Nat.zero_le _⟩)
    · exact dtLeB_mk_fields (Or.inl h)
  · -- weekly
    have hwlt := pyWeekday_lt t.date
    by_cases hk0 : (6 - pyWeekday t.date) % 7 = 0
    · have hreq : weeklyNext t = ⟨addDays t.date 7, 0, 0⟩ := by
        simp [weeklyNext, hk0]
      refine ⟨⟨addDays t.date 7, 0, 0⟩, by rw [← hreq]; rfl, ?_, rfl, rfl,
        ?_, ?_, ?_⟩
      · rw [pyWeekday_addDays hvd]
        omega
      · rw [← hreq]
        exact weeklyNext_gt t
      · rcases Nat.eq_zero_or_pos t.hour with h | h
        · exact dtLeB_mk_fields (Or.inr ⟨h.symm, Nat.zero_le _⟩)
        · exact dtLeB_mk_fields (Or.inl h)
      · intro _
        rfl
    · have hreq : weeklyNext t =
          ⟨addDays t.date ((6 - pyWeekday t.date) % 7), 0, 0⟩ := by
        simp [weeklyNext, hk0]
      have hsplit : addDays t.date 7 =
          addDays (addDays t.date ((6 - pyWeekday t.date) % 7))
            (7 - (6 - pyWeekday t.date) % 7) := by
        rw [← addDays_add]
        congr 1
        omega
      refine ⟨⟨addDays t.date ((6 - pyWeekday t.date) % 7), 0, 0⟩,
        by rw [← hreq]; rfl, ?_, rfl, rfl, ?_, ?_, ?_⟩
      · rw [pyWeekday_addDays hvd]
        omega
      · rw [← hreq]
        exact weeklyNext_gt t
      · refine dtLeB_of_dtLtB (dtLtB_of_dateLtB ?_ 0 0 t.hour t.minute)
        rw [hsplit]
        apply dateLtB_addDays
        omega
      · intro hsm
        rw [hsm.1] at hk0
        simp at hk0
  · -- monthly
    by_cases hm12 : t.date.month = 12
    · have hreq : monthlyNext t = ⟨⟨t.date.year + 1, 1, 1⟩, 0, 0⟩ := by
        simp [monthlyNext, hm12]
      refine ⟨⟨⟨t.date.year + 1, 1, 1⟩, 0, 0⟩, by rw [← hreq]; rfl,
        rfl, rfl, rfl, ?_, ?_, ?_⟩
      · rw [← hreq]
        exact monthlyNext_gt t
      · intro _
        exact ⟨rfl, rfl⟩
      · intro hne
        exact absurd hm12 hne
    · have hreq : monthlyNext t =
          ⟨⟨t.date.year, t.date.month + 1, 1⟩, 0, 0⟩ := by
        simp [monthlyNext, hm12]
      refine ⟨⟨⟨t.date.year, t.date.month + 1, 1⟩, 0, 0⟩, by rw [← hreq]; rfl,
        rfl, rfl, rfl, ?_, ?_, ?_⟩
      · rw [← hreq]
        exact monthlyNext_gt t
      · intro h12
        exact absurd h12 hm12
      · intro _
        exact ⟨rfl, rfl⟩

/-- C4, witness: the calendar description holds at the concrete valid
instant 0002-01-15 10:30 (a Tuesday). -/
theorem c4_witness :
    validDT ⟨⟨2, 1, 15⟩, 10, 30⟩ = true ∧
      SymbolicNextSpec ⟨⟨2, 1, 15⟩, 10, 30⟩ :=
  ⟨by decide, c4_symbolic_calendar ⟨⟨2, 1, 15⟩, 10, 30⟩ (by decide)⟩

theorem skipWsCh_of_head {c : Char} {l : List Char}
    (h : isWsChar c = false) : skipWsCh (c :: l) = c :: l := by
  simp [skipWsCh, List.dropWhile_cons, h]

theorem skipWsCh_cons_ws {c : Char} {l : List Char}
    (h : isWsChar c = true) : skipWsCh (c :: l) = skipWsCh l := by
  simp [skipWsCh, List.dropWhile_cons, h]

theorem pySplitCh_cons_ws {m : Nat} {c : Char} {l : List Char}
    (h : isWsChar c = true) : pySplitCh m (c :: l) = pySplitCh m l := by
  cases m with
  | zero => simp only [pySplitCh, skipWsCh_cons_ws h]
  | succ k => simp only [pySplitCh, skipWsCh_cons_ws h]

theorem token_take_drop {t r : List Char} {sp : Char}
    (ht : ∀ c ∈ t, isWsChar c = false) (hsp : isWsChar sp = true) :
    (t ++ sp :: r).takeWhile notWsCh = t ∧
    (t ++ sp :: r).dropWhile notWsCh = sp :: r := by
  induction t with
  | nil => simp [List.takeWhile_cons, List.dropWhile_cons, notWsCh, hsp]
  | cons c cs ih =>
      have hc : isWsChar c = false := ht c (List.mem_cons_self c cs)
      have ih2 := ih (fun x hx => ht x (List.mem_cons_of_mem c hx))
      simp only [List.cons_append, List.takeWhile_cons, List.dropWhile_cons,
        notWsCh, hc]
      simp only [Bool.not_false, if_true, ih2.1, ih2.2, and_self]

theorem pySplitCh_token {m : Nat} {t r : List Char} (hne : t ≠ [])
    (ht : ∀ c ∈ t, isWsChar c = false) :
    pySplitCh (m + 1) (t ++ ' ' :: r) = t :: pySplitCh m r := by
  obtain ⟨c, cs, rfl⟩ : ∃ c cs, t = c :: cs := by
    cases t with
    | nil => exact absurd rfl hne
    | cons c cs => exact ⟨c, cs, rfl⟩
  have hc : isWsChar c = false := ht c (List.mem_cons_self c cs)
  have htd := @token_take_drop (c :: cs) r ' ' ht rfl
  simp only [pySplitCh, List.cons_append, skipWsCh_of_head hc]
  simp only [List.isEmpty_cons, Bool.false_eq_true, if_false]
  have htake : (c :: (cs ++ ' ' :: r)).takeWhile notWsCh = c :: cs := by
    simpa [List.cons_append] using htd.1
  have hdrop : (c :: (cs ++ ' ' :: r)).dropWhile notWsCh = ' ' :: r := by
    simpa [List.cons_append] using htd.2
  rw [htake, hdrop]
  rw [pySplitCh_cons_ws (show isWsChar ' ' = true from rfl)]

theorem pySplitCh_zero_of_head {c : Char} {l : List Char}
    (h : isWsChar c = false) : pySplitCh 0 (c :: l) = [c :: l] := by
  simp only [pySplitCh, skipWsCh_of_head h]
  simp

theorem getLast?_append_right {l1 l2 : List Char} (h : l2 ≠ []) :
    (l1 ++ l2).getLast? = l2.getLast? :=
  List.getLast?_append_of_ne_nil l1 h

theorem getLast?_cons_right {c : Char} {l : List Char} (h : l ≠ []) :
    (c :: l).getLast? = l.getLast? := by
  have : c :: l = [c] ++ l := rfl
  rw [this]
  exact getLast?_append_right h

theorem stripCh_eq_self {l : List Char}
    (hh : ∀ c, l.head? = some c → isWsChar c = false)
    (hl : ∀ c, l.getLast? = some c → isWsChar c = false) :
    stripCh l = l := by
  unfold stripCh
  have h1 : l.dropWhile isWsChar = l := by
    cases l with
    | nil => simp
    | cons c cs =>
        simp [List.dropWhile_cons, hh c rfl]
  rw [h1]
  have h2 : l.reverse.dropWhile isWsChar = l.reverse := by
    cases hr : l.reverse with
    | nil => simp
    | cons c cs =>
        have hc : l.getLast? = some c := by
          rw [← List.head?_reverse, hr]
          rfl
        simp [List.dropWhile_cons, hl c hc]
  rw [h2, List.reverse_reverse]

/-- C7: on a well-formed drop-in line — five whitespace-free schedule
fields, a whitespace-free user, and a command that may itself contain
whitespace — the fallback parser of `_manual_parse_cron_d_file` yields
exactly one record whose command is the remainder of the line kept
intact, whose user is the sixth field, and whose schedule is the first
five fields joined by single spaces; and blank lines and `#`-comment
lines are ignored. -/
theorem strData_mk (l : List Char) : (⟨l⟩ : String).data = l :=
  rfl

theorem c7_fallback_line_format (fname : String)
    (t1 t2 t3 t4 t5 u cmd : List Char)
    (h1 : t1 ≠ []) (hw1 : ∀ c ∈ t1, isWsChar c = false)
    (h2 : t2 ≠ []) (hw2 : ∀ c ∈ t2, isWsChar c = false)
    (h3 : t3 ≠ []) (hw3 : ∀ c ∈ t3, isWsChar c = false)
    (h4 : t4 ≠ []) (hw4 : ∀ c ∈ t4, isWsChar c = false)
    (h5 : t5 ≠ []) (hw5 : ∀ c ∈ t5, isWsChar c = false)
    (hu : u ≠ []) (hwu : ∀ c ∈ u, isWsChar c = false)
    (hhash : (t1.headD ' ' == '#') = false)
    (hc : cmd ≠ [])
    (hch : isWsChar (cmd.headD ' ') = false)
    (hcl : isWsChar (cmd.getLastD ' ') = false) :
    manualParseCronD fname
      [⟨t1 ++ (' ' :: (t2 ++ (' ' :: (t3 ++ (' ' :: (t4 ++ (' ' :: (t5 ++
        (' ' :: (u ++ (' ' :: cmd)))))))))))⟩] =
      [{ command := ⟨cmd⟩,
         schedule := ⟨t1 ++ (' ' :: (t2 ++ (' ' :: (t3 ++ (' ' :: (t4 ++
           (' ' :: t5)))))))⟩,
         enabled := true,
         comment := "Aus " ++ fname,
         user := ⟨u⟩,
         source := "cron.d/" ++ fname,
         handle := false }] ∧
    (∀ l : String, pyStrip l = "" → manualParseCronD fname [l] = []) ∧
    (∀ l : String, startsHash (pyStrip l) = true →
      manualParseCronD fname [l] = []) := by
  refine ⟨?_, ?_, ?_⟩
  · obtain ⟨c1, cs1, rfl⟩ : ∃ c cs, t1 = c :: cs := by
      cases t1 with
      | nil => exact absurd rfl h1
      | cons c cs => exact ⟨c, cs, rfl⟩
    obtain ⟨cc, ccs, rfl⟩ : ∃ c cs, cmd = c :: cs := by
      cases cmd with
      | nil => exact absurd rfl hc
      | cons c cs => exact ⟨c, cs, rfl⟩
    have hc1 : isWsChar c1 = false := hw1 c1 (List.mem_cons_self c1 cs1)
    have hcc : isWsChar cc = false := hch
    have hlast_eq :
        ((c1 :: cs1) ++ (' ' :: (t2 ++ (' ' :: (t3 ++ (' ' :: (t4 ++
          (' ' :: (t5 ++ (' ' :: (u ++ (' ' :: (cc :: ccs))))))))))))).getLast?
          = (cc :: ccs).getLast? := by
      rw [getLast?_append_right (by simp)]
      rw [getLast?_cons_right (by simp)]
      rw [getLast?_append_right (by simp)]
      rw [getLast?_cons_right (by simp)]
      rw [getLast?_append_right (by simp)]
      rw [getLast?_cons_right (by simp)]
      rw [getLast?_append_right (by simp)]
      rw [getLast?_cons_right (by simp)]
      rw [getLast?_append_right (by simp)]
      rw [getLast?_cons_right (by simp)]
      rw [getLast?_append_right (by simp)]
      rw [getLast?_cons_right (by simp)]
    have hstrip : stripCh ((c1 :: cs1) ++ (' ' :: (t2 ++ (' ' :: (t3 ++
        (' ' :: (t4 ++ (' ' :: (t5 ++ (' ' :: (u ++
        (' ' :: (cc :: ccs))))))))))))) =
        (c1 :: cs1) ++ (' ' :: (t2 ++ (' ' :: (t3 ++ (' ' :: (t4 ++
        (' ' :: (t5 ++ (' ' :: (u ++ (' ' :: (cc :: ccs)))))))))))) := by
      apply stripCh_eq_self
      · intro c hcd
        simp only [List.cons_append, List.head?_cons, Option.some.injEq] at hcd
        rw [← hcd]
        exact hc1
      · intro c hcd
        rw [hlast_eq] at hcd
        have hgd : (cc :: ccs).getLastD ' ' = c := by
          rw [List.getLastD_eq_getLast?, hcd]
          rfl
        rw [← hgd]
        exact hcl
    have hsplit : pySplitCh 6 ((c1 :: cs1) ++ (' ' :: (t2 ++ (' ' :: (t3 ++
        (' ' :: (t4 ++ (' ' :: (t5 ++ (' ' :: (u ++
        (' ' :: (cc :: ccs))))))))))))) =
        [c1 :: cs1, t2, t3, t4, t5, u, cc :: ccs] := by
      rw [pySplitCh_token h1 hw1]
      rw [pySplitCh_token h2 hw2]
      rw [pySplitCh_token h3 hw3]
      rw [pySplitCh_token h4 hw4]
      rw [pySplitCh_token h5 hw5]
      rw [pySplitCh_token hu hwu]
      rw [pySplitCh_zero_of_head hcc]
    simp only [manualParseCronD, List.append_nil]
    simp only [manualParseLine, pyStrip, strData_mk]
    rw [hstrip]
    rw [if_neg ?hcond]
    case hcond =>
      intro hor
      rcases hor with hor | hor
      · have hd := congrArg String.data hor
        simp only [strData_mk, List.cons_append] at hd
        simp at hd
      · simp only [startsHash, strData_mk, List.cons_append] at hor
        have hh1 : (c1 == '#') = false := hhash
        rw [hh1] at hor
        simp at hor
    rw [hsplit]
    rw [if_pos (by simp)]
    rfl
  · intro l hbl
    simp [manualParseCronD, manualParseLine, hbl]
  · intro l hcm
    simp [manualParseCronD, manualParseLine, hcm]

/-- C10: any stripped, non-blank, non-comment line that splits into
fewer than seven whitespace-separated parts yields no job at all — it
is silently dropped, and the rest of the file parses as if the line
were absent. -/
theorem c10_short_lines_dropped (fname : String) (l : String)
    (hb : ¬ pyStrip l = "") (hcm : ¬ startsHash (pyStrip l) = true)
    (hlen : (pySplitCh 6 (pyStrip l).data).length < 7) :
    manualParseLine fname l = [] ∧
    (∀ ls, manualParseCronD fname (l :: ls) = manualParseCronD fname ls) := by
  have hml : manualParseLine fname l = [] := by
    simp only [manualParseLine]
    rw [if_neg ?hcond2]
    case hcond2 =>
      intro hor
      rcases hor with hor | hor
      · exact hb hor
      · exact hcm hor
    rw [if_neg (by omega)]
  refine ⟨hml, ?_⟩
  intro ls
  simp only [manualParseCronD, hml, List.nil_append]

/-- C7, witness: a concrete drop-in line whose command contains internal
whitespace parses into exactly the record the claim describes. -/
theorem c7_witness :
    manualParseCronD "njobs"
      [⟨['0'] ++ (' ' :: (['5'] ++ (' ' :: (['*'] ++ (' ' :: (['*'] ++
        (' ' :: (['1'] ++ (' ' :: ("root".data ++
        (' ' :: "/bin/echo hello world".data)))))))))))⟩] =
      [{ command := ⟨"/bin/echo hello world".data⟩,
         schedule := ⟨['0'] ++ (' ' :: (['5'] ++ (' ' :: (['*'] ++
           (' ' :: (['*'] ++ (' ' :: ['1'])))))))⟩,
         enabled := true,
         comment := "Aus " ++ "njobs",
         user := ⟨"root".data⟩,
         source := "cron.d/" ++ "njobs",
         handle := false }] :=
  (c7_fallback_line_format "njobs" ['0'] ['5'] ['*'] ['*'] ['1']
    "root".data "/bin/echo hello world".data
    (by decide) (by decide) (by decide) (by decide) (by decide) (by decide)
    (by decide) (by decide) (by decide) (by decide) (by decide) (by decide)
    (by decide) (by decide) (by decide) (by decide)).1

/-- C10, witness: a symbolic line, a six-field user-style line and an
environment-variable line each yield no record. -/
theorem c10_witness :
    manualParseLine "zz" "@reboot root /usr/bin/uptime-log" = [] ∧
    manualParseLine "zz" "*/5 * * * * /usr/bin/six-fields" = [] ∧
    manualParseLine "zz" "PATH=/usr/local/bin" = [] := by
  refine ⟨?_, ?_, ?_⟩
  · exact (c10_short_lines_dropped "zz" _ (by decide) (by decide)
      (by decide)).1
  · exact (c10_short_lines_dropped "zz" _ (by decide) (by decide)
      (by decide)).1
  · exact (c10_short_lines_dropped "zz" _ (by decide) (by decide)
      (by decide)).1

/-- C1, amended: the frequency bucket of a schedule string follows the
branch chain of `show_job_statistics`: equality with `* * * * *` for
minute; Python substring containment of `0 * * * *` — or the name
`@hourly` — for hourly; membership in the three daily strings for
daily; `@weekly` or containment of `0 0 * * 0` for weekly; `@monthly`
or containment of `0 0 1 * *` for monthly; `other` otherwise.  Symbolic
kinds therefore map by kind and the fixed numeric shapes to their
buckets, but containment also drags in any schedule string that merely
contains a shape as a substring. -/
theorem c1_freq_bucketing (s : String) :
    (freqBucket s = FreqBucket.minute ↔ s = "* * * * *") ∧
    (freqBucket s = FreqBucket.hourly ↔ (s ≠ "* * * * *" ∧
      (strContains s "0 * * * *" = true ∨ s = "@hourly"))) ∧
    (freqBucket s = FreqBucket.daily ↔ (s ≠ "* * * * *" ∧
      ¬ (strContains s "0 * * * *" = true ∨ s = "@hourly") ∧
      (s = "0 0 * * *" ∨ s = "@daily" ∨ s = "@midnight"))) ∧
    (freqBucket s = FreqBucket.weekly ↔ (s ≠ "* * * * *" ∧
      ¬ (strContains s "0 * * * *" = true ∨ s = "@hourly") ∧
      ¬ (s = "0 0 * * *" ∨ s = "@daily" ∨ s = "@midnight") ∧
      (s = "@weekly" ∨ strContains s "0 0 * * 0" = true))) ∧
    (freqBucket s = FreqBucket.monthly ↔ (s ≠ "* * * * *" ∧
      ¬ (strContains s "0 * * * *" = true ∨ s = "@hourly") ∧
      ¬ (s = "0 0 * * *" ∨ s = "@daily" ∨ s = "@midnight") ∧
      ¬ (s = "@weekly" ∨ strContains s "0 0 * * 0" = true) ∧
      (s = "@monthly" ∨ strContains s "0 0 1 * *" = true))) := by
  unfold freqBucket
  split_ifs with hα hβ hγ hδ hε <;> simp_all

/-- C1, witness: the symbolic names map to their buckets through the
characterization, as the claim's symbolic half says. -/
theorem c1_witness :
    freqBucket "@daily" = FreqBucket.daily ∧
    freqBucket "@weekly" = FreqBucket.weekly ∧
    freqBucket "0 0 1 * *" = FreqBucket.monthly := by
  refine ⟨?_, ?_, ?_⟩
  · exact (c1_freq_bucketing "@daily").2.2.1.mpr (by decide)
  · exact (c1_freq_bucketing "@weekly").2.2.2.1.mpr (by decide)
  · exact (c1_freq_bucketing "0 0 1 * *").2.2.2.2.mpr (by decide)

/-- C1, counterexample: `10 * * * *` contains `0 * * * *` as a
substring and `30 0 * * 0` contains `0 0 * * 0`, so these plain numeric
schedules — which the claim places in `other` — are counted in the
hourly and weekly buckets. -/
theorem c1_counterexample :
    freqBucket "10 * * * *" = FreqBucket.hourly ∧
    freqBucket "30 0 * * 0" = FreqBucket.weekly := by
  refine ⟨?_, ?_⟩
  · decide
  · decide

/-- C5: the missing-file half of the claim holds (an absent
/etc/crontab yields the empty list, not an error), but the fallback
half is a stub: on structured-parse failure
`_manual_parse_system_crontab` reads the lines and then sets
`system_cron = None`, so a well-formed line that the line-oriented
parser demonstrably recovers (third conjunct, via
`_manual_parse_cron_d_file` on the same text) yields no job at all from
the system-table reader. -/
theorem c5_system_fallback_stub :
    listSystemJobs (loadSystemCrontab false "" none) = [] ∧
    listSystemJobs (loadSystemCrontab true
      "0 5 * * * root /usr/local/bin/backup.sh" none) = [] ∧
    (manualParseCronD "crontab"
      ["0 5 * * * root /usr/local/bin/backup.sh"]).length = 1 := by
  refine ⟨rfl, ?_, ?_⟩
  · decide
  · decide

/-- C6, amended: the /etc/cron.d scan treats every directory entry
independently — the listing is the concatenation of per-entry
contributions, so one entry's parse failure never drops the others;
only the literal names `.`, `..`, `.placeholder` and `README` are
skipped (a dotfile with any other name is not); non-regular files
contribute nothing; and an entry whose structured parse fails is
re-parsed by the line-oriented fallback parser scoped to that file. -/
theorem c6_cron_d_scan (entries : List DirEntry) :
    listCronDJobs entries = entries.flatMap cronDEntryJobs ∧
    (∀ e : DirEntry, e.name ∈ cronDSkipNames → cronDEntryJobs e = []) ∧
    (∀ e : DirEntry, e.isFile = false → cronDEntryJobs e = []) ∧
    (∀ e : DirEntry, e.name ∉ cronDSkipNames → e.isFile = true →
      e.parsed = none →
      cronDEntryJobs e = manualParseCronD e.name e.lines) := by
  refine ⟨?_, ?_, ?_, ?_⟩
  · induction entries with
    | nil => simp [listCronDJobs]
    | cons e es ih => simp [listCronDJobs, ih]
  · intro e he
    simp [cronDEntryJobs, he]
  · intro e hf
    by_cases hn : e.name ∈ cronDSkipNames
    · simp [cronDEntryJobs, hn]
    · simp [cronDEntryJobs, hn, hf]
  · intro e hn hf hp
    simp [cronDEntryJobs, hn, hf, hp]

/-- C6, witness: a `README` entry contributes nothing even though it
holds a parseable line, and a failing entry is re-parsed by the
fallback parser scoped to it. -/
theorem c6_witness :
    cronDEntryJobs ⟨"README", true, none, ["0 * * * * root /bin/x"]⟩ = [] ∧
    cronDEntryJobs ⟨"badfile", true, none, ["0 * * * * root /bin/x"]⟩ =
      manualParseCronD "badfile" ["0 * * * * root /bin/x"] := by
  refine ⟨?_, ?_⟩
  · exact (c6_cron_d_scan []).2.1 _ (by decide)
  · exact (c6_cron_d_scan []).2.2.2 _ (by decide) rfl rfl

/-- C6, counterexample: a dotfile named `.hidden` is not skipped — its
structured rows come back from the scan — refuting the claim that
dotfiles are skipped. -/
theorem c6_counterexample :
    listCronDJobs [⟨".hidden", true,
      some [⟨"/bin/true", "* * * * *", true, "", "root"⟩], []⟩] =
    [⟨"/bin/true", "* * * * *", true, ".hidden: ", "root",
      "cron.d/.hidden", true⟩] := by
  decide

theorem listPeriodicAux_eq (p : Period) (fs : List PFile) :
    listPeriodicAux p fs = (fs.filter periodicKeeps).map (periodicJob p) := by
  induction fs with
  | nil => simp [listPeriodicAux]
  | cons f fs ih =>
      by_cases hf : periodicKeeps f = true
      · simp [listPeriodicAux, List.filter_cons, hf, ih]
      · simp only [Bool.not_eq_true] at hf
        simp [listPeriodicAux, List.filter_cons, hf, ih]

/-- C8: the periodic scan yields exactly one record per kept file —
kept iff non-hidden, regular, executable and shebang-headed — across
the four directories in their fixed order, and every record is
enabled, carries no backing handle, runs as root, and bears the
symbolic schedule and source naming its directory. -/
theorem c8_periodic_jobs (files : Period → List PFile) :
    listPeriodicJobs files =
      ((files Period.hourly).filter periodicKeeps).map
        (periodicJob Period.hourly) ++
      ((files Period.daily).filter periodicKeeps).map
        (periodicJob Period.daily) ++
      ((files Period.weekly).filter periodicKeeps).map
        (periodicJob Period.weekly) ++
      ((files Period.monthly).filter periodicKeeps).map
        (periodicJob Period.monthly) ∧
    (∀ j, j ∈ listPeriodicJobs files →
      j.enabled = true ∧ j.handle = false ∧ j.user = "root" ∧
      ∃ p : Period, j.schedule = "@" ++ periodName p ∧
        j.source = "periodic-" ++ periodName p) := by
  have heq : listPeriodicJobs files =
      ((files Period.hourly).filter periodicKeeps).map
        (periodicJob Period.hourly) ++
      ((files Period.daily).filter periodicKeeps).map
        (periodicJob Period.daily) ++
      ((files Period.weekly).filter periodicKeeps).map
        (periodicJob Period.weekly) ++
      ((files Period.monthly).filter periodicKeeps).map
        (periodicJob Period.monthly) := by
    unfold listPeriodicJobs
    rw [listPeriodicAux_eq, listPeriodicAux_eq, listPeriodicAux_eq,
      listPeriodicAux_eq]
  refine ⟨heq, ?_⟩
  intro j hj
  rw [heq] at hj
  simp only [List.mem_append, List.mem_map] at hj
  rcases hj with ((⟨f, _, hfj⟩ | ⟨f, _, hfj⟩) | ⟨f, _, hfj⟩) | ⟨f, _, hfj⟩ <;>
    rw [← hfj] <;>
    exact ⟨rfl, rfl, rfl, _, rfl, rfl⟩

/-- C8, witness: a single shebang-headed executable in the daily
directory yields a record with the claimed fields. -/
theorem c8_witness :
    (⟨"/etc/cron.daily/backup", "@daily", true, "Daily job", "root",
      "periodic-daily", false⟩ : Job).enabled = true ∧
    (⟨"/etc/cron.daily/backup", "@daily", true, "Daily job", "root",
      "periodic-daily", false⟩ : Job).handle = false ∧
    (⟨"/etc/cron.daily/backup", "@daily", true, "Daily job", "root",
      "periodic-daily", false⟩ : Job).user = "root" ∧
    ∃ p : Period,
      (⟨"/etc/cron.daily/backup", "@daily", true, "Daily job", "root",
        "periodic-daily", false⟩ : Job).schedule = "@" ++ periodName p ∧
      (⟨"/etc/cron.daily/backup", "@daily", true, "Daily job", "root",
        "periodic-daily", false⟩ : Job).source =
        "periodic-" ++ periodName p := by
  have h := (c8_periodic_jobs (fun p =>
    match p with
    | Period.daily => [⟨"backup", true, true, ['#', '!', '/']⟩]
    | _ => [])).2
    ⟨"/etc/cron.daily/backup", "@daily", true, "Daily job", "root",
      "periodic-daily", false⟩ (by decide)
  exact h

theorem mem_searchLoop {keyword : String} {j : Job} :
    ∀ (sources : List (List Job)),
      (j ∈ searchLoop keyword sources ↔
        ∃ src, src ∈ sources ∧ j ∈ src ∧ jobMatches keyword j = true) := by
  intro sources
  induction sources with
  | nil => simp [searchLoop]
  | cons src rest ih =>
      simp only [searchLoop, List.mem_append, List.mem_filter, ih,
        List.mem_cons]
      constructor
      · intro h
        rcases h with ⟨hm, hmt⟩ | ⟨s, hs, hm, hmt⟩
        · exact ⟨src, Or.inl rfl, hm, hmt⟩
        · exact ⟨s, Or.inr hs, hm, hmt⟩
      · intro ⟨s, hs, hm, hmt⟩
        rcases hs with rfl | hs
        · exact Or.inl ⟨hm, hmt⟩
        · exact Or.inr ⟨s, hs, hm, hmt⟩

/-- C9: an empty keyword matches nothing — the request returns before
any source is read — and for a nonempty keyword a job from the sources
is returned exactly when the lowered keyword occurs as a substring of
its lowered command or of its lowered comment. -/
theorem c9_search_filter (sources : List (List Job)) (keyword : String) :
    searchJobs sources "" = [] ∧
    (keyword ≠ "" →
      ∀ j, j ∈ searchJobs sources keyword ↔
        ((∃ src, src ∈ sources ∧ j ∈ src) ∧
         (strContains (toLowerStr j.command) (toLowerStr keyword) = true ∨
          strContains (toLowerStr j.comment) (toLowerStr keyword) = true))) := by
  refine ⟨rfl, ?_⟩
  intro hk j
  unfold searchJobs
  rw [if_neg hk]
  rw [mem_searchLoop]
  unfold jobMatches
  simp only [Bool.or_eq_true]
  constructor
  · intro ⟨src, hs, hm, hmt⟩
    exact ⟨⟨src, hs, hm⟩, hmt⟩
  · intro ⟨⟨src, hs, hm⟩, hmt⟩
    exact ⟨src, hs, hm, hmt⟩

/-- C9, witness: the keyword `backup` finds a job whose command
contains `Backup` (case-insensitively), and the empty keyword returns
nothing even over nonempty sources. -/
theorem c9_witness :
    searchJobs [[⟨"/usr/local/bin/Backup.sh", "0 0 * * *", true, "",
      "root", "user", true⟩]] "" = [] ∧
    (⟨"/usr/local/bin/Backup.sh", "0 0 * * *", true, "", "root", "user",
      true⟩ : Job) ∈ searchJobs [[⟨"/usr/local/bin/Backup.sh",
      "0 0 * * *", true, "", "root", "user", true⟩]] "backup" := by
  refine ⟨(c9_search_filter [[⟨"/usr/local/bin/Backup.sh", "0 0 * * *",
    true, "", "root", "user", true⟩]] "backup").1, ?_⟩
  exact ((c9_search_filter [[⟨"/usr/local/bin/Backup.sh", "0 0 * * *",
    true, "", "root", "user", true⟩]] "backup").2 (by decide) _).mpr
    ⟨⟨[⟨"/usr/local/bin/Backup.sh", "0 0 * * *", true, "", "root",
      "user", true⟩], by decide, by decide⟩, Or.inl (by decide)⟩

end CronManager
